import Mathlib

/-
Verification development for the QDirStat directory-tree core and its main
window (src/src/MainWindow.cpp).  The window code is embedded directly from
the source; the tree engine (FileSystemEntry / AggregationEngine, Scanner,
DirectoryTree, CacheCodec, ExcludeRules) is not part of the source tree and
is modelled from the specification, as marked on each definition.
-/

set_option maxHeartbeats 1000000

/-- Modelled from the spec: own metrics of a filesystem entry (byte size,
allocated-block size, last-modified timestamp as an integer epoch value). -/
structure OwnMetrics where
  size : Nat
  allocated : Nat
  mtime : Nat
deriving DecidableEq, Repr

/-- Modelled from the spec: the non-directory entry kinds: regular file,
symbolic link, special/other, busy placeholder, ignored/excluded marker,
read-error marker. -/
inductive LeafKind where
  | file
  | symlink
  | special
  | busy
  | ignored
  | readError
deriving DecidableEq, Repr

/-- Modelled from the spec: cumulative metrics of a directory: total size,
total allocated size, total item count, total subdirectory count, latest
descendant modification time. -/
@[ext]
structure CumMetrics where
  totalSize : Nat
  totalAllocated : Nat
  totalItems : Nat
  totalSubDirs : Nat
  latestMtime : Nat
deriving DecidableEq, Repr

/-- Modelled from the spec: a FileSystemEntry node.  A directory stores its
cumulative metrics as a field (they are derived, not independently
settable); every node stores only its local name, and the children are an
ordered collection in discovery order. -/
inductive Entry where
  | leaf (name : String) (kind : LeafKind) (own : OwnMetrics)
  | dir (name : String) (own : OwnMetrics) (cum : CumMetrics) (children : List Entry)

def zeroOwn : OwnMetrics := ⟨0, 0, 0⟩

def zeroCum : CumMetrics := ⟨0, 0, 0, 0, 0⟩

/-- Modelled from the spec: the contribution of one child to its parent's
cumulative metrics.  Excluded ("ignored") and read-error placeholders
contribute zero; a regular leaf contributes its own size, allocated size,
one item, and its mtime; a subdirectory contributes its cumulative metrics
plus itself as one item and one subdirectory, and its mtime contribution is
the max of its own mtime and its latest descendant mtime. -/
def contrib : Entry → CumMetrics
  | .leaf _ k own =>
      if k = .ignored ∨ k = .readError then zeroCum
      else ⟨own.size, own.allocated, 1, 0, own.mtime⟩
  | .dir _ own cum _ =>
      ⟨cum.totalSize, cum.totalAllocated, cum.totalItems + 1,
       cum.totalSubDirs + 1, max own.mtime cum.latestMtime⟩

/-- Modelled from the spec: combining two cumulative contributions: sums for
the additive fields, max for the latest modification time. -/
def cumAdd (a b : CumMetrics) : CumMetrics :=
  ⟨a.totalSize + b.totalSize, a.totalAllocated + b.totalAllocated,
   a.totalItems + b.totalItems, a.totalSubDirs + b.totalSubDirs,
   max a.latestMtime b.latestMtime⟩

/-- Modelled from the spec: the cumulative metrics determined by a list of
children: the sum (max for mtime) of the children's contributions. -/
def computeCum (cs : List Entry) : CumMetrics :=
  cs.foldr (fun c acc => cumAdd (contrib c) acc) zeroCum

mutual

/-- Modelled from the spec: the aggregation invariant: every directory's
stored cumulative metrics equal the metrics computed from its children's
contributions, recursively. -/
def consistentB : Entry → Bool
  | .leaf _ _ _ => true
  | .dir _ _ cum cs => decide (cum = computeCum cs) && consistentAll cs

/-- The aggregation invariant for a list of sibling entries. -/
def consistentAll : List Entry → Bool
  | [] => true
  | c :: cs => consistentB c && consistentAll cs

end

/-- Modelled from the spec: cumulative update of an ancestor when a child
subtree has one entry replaced: subtract the previous contribution of the
changed child, add the new one for the additive fields, and recompute the
latest mtime by re-scanning the surviving children (the spec calls out that
the max cannot be maintained by a local shortcut on detach). -/
def replacedCum (cum oldC newC : CumMetrics) (cs : List Entry) : CumMetrics :=
  ⟨cum.totalSize - oldC.totalSize + newC.totalSize,
   cum.totalAllocated - oldC.totalAllocated + newC.totalAllocated,
   cum.totalItems - oldC.totalItems + newC.totalItems,
   cum.totalSubDirs - oldC.totalSubDirs + newC.totalSubDirs,
   (computeCum cs).latestMtime⟩

/-- Modelled from the spec: attachChild.  The path is the list of child
indices leading from the given node down to the directory that receives the
new child; the new child is appended to that directory's children and the
new child's contribution is added (sum / max) to the cumulative metrics of
every directory along the path, an O(depth) upward propagation. -/
def attachChild : Entry → List Nat → Entry → Option Entry
  | .leaf _ _ _, _, _ => none
  | .dir n o cum cs, [], c =>
      some (.dir n o (cumAdd cum (contrib c)) (cs ++ [c]))
  | .dir n o cum cs, i :: p, c =>
      match cs[i]? with
      | none => none
      | some old =>
        match attachChild old p c with
        | none => none
        | some new => some (.dir n o (cumAdd cum (contrib c)) (cs.set i new))

/-- Modelled from the spec: detachChild.  The non-empty path addresses the
child to remove; every ancestor along the path subtracts the removed
child's contribution from the additive cumulative fields and recomputes the
latest mtime over its surviving children. -/
def detachChild : Entry → List Nat → Option Entry
  | .leaf _ _ _, _ => none
  | .dir _ _ _ _, [] => none
  | .dir n o cum cs, [i] =>
      match cs[i]? with
      | none => none
      | some old =>
        let cs' := cs.eraseIdx i
        some (.dir n o (replacedCum cum (contrib old) zeroCum cs') cs')
  | .dir n o cum cs, i :: p :: ps =>
      match cs[i]? with
      | none => none
      | some old =>
        match detachChild old (p :: ps) with
        | none => none
        | some new =>
          let cs' := cs.set i new
          some (.dir n o (replacedCum cum (contrib old) (contrib new) cs') cs')

/-- Modelled from the spec: updateOwnMetrics on a leaf entry.  The path
addresses the leaf whose own metrics are replaced; every ancestor subtracts
the leaf's previous contribution, adds the new one, and recomputes the
latest mtime over its children. -/
def updateOwn : Entry → List Nat → OwnMetrics → Option Entry
  | .leaf n k _, [], newOwn => some (.leaf n k newOwn)
  | .leaf _ _ _, _ :: _, _ => none
  | .dir _ _ _ _, [], _ => none
  | .dir n o cum cs, i :: p, newOwn =>
      match cs[i]? with
      | none => none
      | some old =>
        match updateOwn old p newOwn with
        | none => none
        | some new =>
          let cs' := cs.set i new
          some (.dir n o (replacedCum cum (contrib old) (contrib new) cs') cs')

/-- Modelled from the spec: an operation of the aggregation engine.  Attach
creates and attaches a freshly discovered node (a leaf of the given kind,
or an empty directory when the kind is none), exactly as the scanner and
the cache decoder do: a node is only attached after its own metrics are
fully known. -/
inductive TreeOp where
  | attach (path : List Nat) (name : String) (kind : Option LeafKind) (own : OwnMetrics)
  | detach (path : List Nat)
  | update (path : List Nat) (own : OwnMetrics)

/-- Modelled from the spec: the node freshly created for an attach. -/
def freshEntry (name : String) (kind : Option LeafKind) (own : OwnMetrics) : Entry :=
  match kind with
  | some k => .leaf name k own
  | none => .dir name own zeroCum []

/-- Modelled from the spec: applying one operation to a tree; an operation
whose path is invalid is rejected and leaves the tree unchanged. -/
def applyOp (t : Entry) (op : TreeOp) : Entry :=
  match op with
  | .attach p n k o => (attachChild t p (freshEntry n k o)).getD t
  | .detach p => (detachChild t p).getD t
  | .update p o => (updateOwn t p o).getD t

/-- Modelled from the spec: applying a sequence of operations in order. -/
def applyOps (t : Entry) (ops : List TreeOp) : Entry :=
  ops.foldl applyOp t

/-- Modelled from the spec: the kind field of a cache line: a directory
line, or a leaf line carrying the leaf kind; the excluded / read-error
placeholder flag is part of the carried kind. -/
inductive LineKind where
  | dirLine
  | leafLine (k : LeafKind)
deriving DecidableEq, Repr

/-- Modelled from the spec: one line of the line-oriented cache format:
kind, full path (as its slash-separated components), and the own metrics
(size, allocated blocks, mtime as an integer epoch value).  Cumulative
metrics are never part of a line. -/
structure CacheLine where
  kind : LineKind
  path : List String
  own : OwnMetrics
deriving DecidableEq, Repr

/-- Modelled from the spec: the error taxonomy of the cache codec. -/
inductive CacheError where
  | cacheFormatError
  | cacheIOError
deriving DecidableEq, Repr

/-- Modelled from the spec: the contents read from a cache file: the lines
and whether the file was truncated mid-line. -/
structure CacheFile where
  lines : List CacheLine
  truncated : Bool

mutual

/-- Modelled from the spec: encode walks the tree depth-first in children
insertion order, emitting one line per node and a directory line before the
lines of its children; cumulative metrics are not emitted. -/
def encodeEntry : List String → Entry → List CacheLine
  | path, .leaf n k own => [⟨.leafLine k, path ++ [n], own⟩]
  | path, .dir n own _ cs =>
      ⟨.dirLine, path ++ [n], own⟩ :: encodeList (path ++ [n]) cs

/-- Depth-first encoding of a list of sibling entries below the given
directory path. -/
def encodeList : List String → List Entry → List CacheLine
  | _, [] => []
  | path, c :: cs => encodeEntry path c ++ encodeList path cs

end

/-- Component-wise test that the first path is a prefix of the second. -/
def pathLE : List String → List String → Bool
  | [], _ => true
  | _ :: _, [] => false
  | a :: as, b :: bs => a == b && pathLE as bs

/-- Modelled from the spec: the streaming decoder for the children of the
directory at the given path: it reads line by line; a line whose path is a
direct child of the current directory is attached (a directory line parses
its own children first and its cumulative metrics are recomputed from the
parsed children exactly as the aggregation engine computes them); any other
line closes the current directory and is left for an enclosing level, which
is the implicit-close-on-path-depth-change of the spec.  The fuel argument
bounds the recursion; the caller passes more fuel than there are lines, so
running out of fuel never happens on real input. -/
def decodeChildren :
    Nat → List String → List CacheLine → Option (List Entry × List CacheLine)
  | 0, _, _ => none
  | _ + 1, _, [] => some ([], [])
  | fuel + 1, dirPath, l :: rest =>
      if l.path.dropLast = dirPath ∧ l.path ≠ [] then
        match l.kind with
        | .leafLine k =>
            match decodeChildren fuel dirPath rest with
            | none => none
            | some (sibs, rem) =>
                some (.leaf (l.path.getLastD "") k l.own :: sibs, rem)
        | .dirLine =>
            match decodeChildren fuel l.path rest with
            | none => none
            | some (kids, rem) =>
                match decodeChildren fuel dirPath rem with
                | none => none
                | some (sibs, rem2) =>
                    some (.dir (l.path.getLastD "") l.own (computeCum kids) kids
                            :: sibs, rem2)
      else some ([], l :: rest)

/-- Modelled from the spec: decode reads the line list in a single pass; a
truncated file fails with CacheIOError; a malformed line sequence (no root
line, an orphan line not attachable below the root, trailing lines, or
more than one root) fails with CacheFormatError; cumulative metrics are
always recomputed during the pass, never read from the file. -/
def decode (f : CacheFile) : Except CacheError Entry :=
  if f.truncated then .error .cacheIOError
  else
    match decodeChildren (f.lines.length + 1) [] f.lines with
    | some ([root], []) => .ok root
    | _ => .error .cacheFormatError

/-- The parsing boundary condition: the head line of the remaining input,
if any, does not lie below the given directory path, so the decoder at
that path stops without consuming it. -/
def stopsBelow (dirPath : List String) : List CacheLine → Prop
  | [] => True
  | l :: _ => pathLE dirPath l.path.dropLast = false

/-- The per-field projection sum of the contributions of a list of entries,
used to reason about the additive cumulative fields. -/
def sumBy (f : CumMetrics → Nat) (cs : List Entry) : Nat :=
  (cs.map fun c => f (contrib c)).sum

/-- Modelled from the spec: a point-in-time filesystem subtree to scan: a
file or a directory with named children. -/
inductive FSNode where
  | file (name : String) (own : OwnMetrics)
  | dir (name : String) (own : OwnMetrics) (children : List FSNode)

/-- Modelled from the spec: an exclude rule is a pattern evaluated against
the full candidate path, given here as its slash-separated components. -/
def ExcludeRule : Type := List String → Bool

/-- Modelled from the spec: the regex pattern dot-star-slash-backslash-dot-
snapshot-dollar registered at startup matches exactly the absolute paths
whose last component is the literal ".snapshot", since path components
contain no slash. -/
def snapshotRule : ExcludeRule := fun p => p.getLastD "" == ".snapshot"

/-- Modelled from the spec: the ordered exclude rule set answers a match
query positively if any registered pattern matches the candidate path. -/
def excludeMatches (rules : List ExcludeRule) (p : List String) : Bool :=
  rules.any fun r => r p

/-- The rule set built by the MainWindow constructor, which registers
exactly one rule for the .snapshot pattern (MainWindow.cpp line 91). -/
def startupRules : List ExcludeRule := [snapshotRule]

mutual

/-- Modelled from the spec: the scanner's traversal: depth-first, one entry
per filesystem node; each candidate directory is checked against the
exclude rules before descending, and an excluded directory is inserted as
a kind-ignored leaf placeholder with zero metrics instead of being
descended into; a scanned directory's cumulative metrics aggregate its
scanned children. -/
def scanFS (rules : List ExcludeRule) (path : List String) : FSNode → Entry
  | .file n own => .leaf n .file own
  | .dir n own cs =>
      if excludeMatches rules (path ++ [n]) then .leaf n .ignored zeroOwn
      else
        .dir n own (computeCum (scanList rules (path ++ [n]) cs))
          (scanList rules (path ++ [n]) cs)

/-- Depth-first scan of a list of sibling filesystem nodes. -/
def scanList (rules : List ExcludeRule) (path : List String) :
    List FSNode → List Entry
  | [] => []
  | c :: cs => scanFS rules path c :: scanList rules path cs

end

mutual

/-- The number of ignored placeholder nodes in a tree. -/
def countIgnored : Entry → Nat
  | .leaf _ k _ => if k = .ignored then 1 else 0
  | .dir _ _ _ cs => countIgnoredList cs

/-- The number of ignored placeholder nodes in a list of sibling trees. -/
def countIgnoredList : List Entry → Nat
  | [] => 0
  | c :: cs => countIgnored c + countIgnoredList cs

end

mutual

/-- No directory anywhere in the filesystem subtree, placed at the given
path, matches the exclude rules. -/
def cleanFS (rules : List ExcludeRule) (path : List String) : FSNode → Bool
  | .file _ _ => true
  | .dir n _ cs =>
      !excludeMatches rules (path ++ [n]) && cleanList rules (path ++ [n]) cs

/-- No directory in any of the sibling subtrees matches the rules. -/
def cleanList (rules : List ExcludeRule) (path : List String) :
    List FSNode → Bool
  | [] => true
  | c :: cs => cleanFS rules path c && cleanList rules path cs

end

/-- Modelled from the spec: the scan state machine of the directory
tree: Idle, Scanning, and the terminal states Finished, Aborted, Failed. -/
inductive ScanState where
  | idle
  | scanning
  | finished
  | aborted
  | failed
deriving DecidableEq, Repr

/-- Modelled from the spec: the directory tree object: root entry (absent
before any scan), root url (empty when none loaded), and scan state. -/
structure DirTree where
  root : Option Entry
  url : String
  scanState : ScanState

/-- Modelled from the spec: busy exactly while the scanner state is
Scanning. -/
def DirTree.isBusy (t : DirTree) : Bool :=
  decide (t.scanState = ScanState.scanning)

/-- Modelled from the spec: openPath discards any existing root and scan
state and starts a fresh scan of the given path; it is the single fresh
scan entry point used for both initial load and refresh. -/
def DirTree.openPath (_t : DirTree) (path : String) : DirTree :=
  { root := none, url := path, scanState := .scanning }

/-- Modelled from the spec: abortReading delegates to the scanner's
cooperative abort, which transitions Scanning to Aborted and is a no-op in
any other state. -/
def DirTree.abortReading (t : DirTree) : DirTree :=
  if t.scanState = .scanning then { t with scanState := .aborted } else t

/-- Modelled from the spec: clear discards the current tree contents. -/
def DirTree.clear (t : DirTree) : DirTree := { t with root := none }

/-- Modelled from the spec: the outcome of reading and decoding a cache
file; reading the file contents may fail outright (modelled by none),
which is a CacheIOError, otherwise the codec decodes the lines. -/
def readResult (content : Option CacheFile) : Except CacheError Entry :=
  match content with
  | none => .error .cacheIOError
  | some f => decode f

/-- Modelled from the spec: readCache replaces the current tree contents
with the result of decoding the given file; it fails with CacheFormatError
or CacheIOError as appropriate, leaving the tree it was invoked on intact
on failure (atomic replace-or-keep). -/
def DirTree.readCache (t : DirTree) (content : Option CacheFile) :
    DirTree × Option CacheError :=
  match readResult content with
  | .error e => (t, some e)
  | .ok root => ({ t with root := some root }, none)

/-- The serialized form of the current tree: the encoding of the root, or
nothing when no tree is loaded. -/
def encodeTree (t : DirTree) : List CacheLine :=
  match t.root with
  | some r => encodeEntry [] r
  | none => []

/-- Modelled from the spec: writeCache serializes the current tree, writes
it to a temporary name and renames it over the target only on success, and
returns whether it succeeded.  The argument ioOk models whether the
underlying storage completed the write of the temporary file; written is
how many lines reached the temporary file when it did not.  On failure the
target name is never touched. -/
def DirTree.writeCache (t : DirTree) (disk : String → Option (List CacheLine))
    (file : String) (ioOk : Bool) (written : Nat) :
    (String → Option (List CacheLine)) × Bool :=
  if ioOk then
    (fun x => if x = file then some (encodeTree t)
              else if x = file ++ ".tmp" then none else disk x, true)
  else
    (fun x => if x = file ++ ".tmp" then some ((encodeTree t).take written)
              else disk x, false)

/-- The enabled state of the four scan-related actions that
MainWindow::updateActions drives. -/
structure ActionStates where
  stopReadingEnabled : Bool
  refreshAllEnabled : Bool
  readCacheEnabled : Bool
  writeCacheEnabled : Bool
deriving DecidableEq, Repr

/-- The expansion state of the directory tree view widget. -/
inductive ViewExpand where
  | initial
  | collapsedAll
  | expandedToDepth (depth : Nat)
deriving DecidableEq, Repr

/-- The main window state visible to the embedded slots: the modified
flag, the status bar message, the action enablement, the tree view
expansion and sorting, the tree model's tree, and the disk contents seen
by the cache commands. -/
structure UIState where
  modified : Bool
  statusMessage : String
  actions : ActionStates
  view : ViewExpand
  sortedByTotalSizeDesc : Bool
  tree : DirTree
  disk : String → Option (List CacheLine)

/-- MainWindow::updateActions: stop-reading is enabled while the tree is
busy; refresh, read-cache and write-cache are enabled while it is not. -/
def updateActions (st : UIState) : UIState :=
  { st with actions :=
      ⟨st.tree.isBusy, !st.tree.isBusy, !st.tree.isBusy, !st.tree.isBusy⟩ }

/-- MainWindow::expandTreeToLevel: collapse the whole view when the level
is below 1, otherwise expand the view to depth level - 1. -/
def expandTreeToLevel (st : UIState) (level : Int) : UIState :=
  if level < 1 then { st with view := .collapsedAll }
  else { st with view := .expandedToDepth (level - 1).toNat }

/-- MainWindow::openUrl: open the url on the tree model, update the
actions, and expand the tree view to level 1. -/
def openUrl (st : UIState) (url : String) : UIState :=
  expandTreeToLevel (updateActions { st with tree := st.tree.openPath url }) 1

/-- MainWindow::askOpenUrl: ask the user for a directory (dlg is the
dialog result, empty when cancelled) and open it when non-empty. -/
def askOpenUrl (st : UIState) (dlg : String) : UIState :=
  if dlg = "" then st else openUrl st dlg

/-- MainWindow::refreshAll: when the tree has a url, reopen that same url
directly on the tree model and update the actions; otherwise fall back to
asking the user for a directory. -/
def refreshAll (st : UIState) (dlg : String) : UIState :=
  if st.tree.url = "" then askOpenUrl st dlg
  else updateActions { st with tree := st.tree.openPath st.tree.url }

/-- MainWindow::stopReading: only when the tree is busy, abort the reading
and show the aborted message in the status bar. -/
def stopReading (st : UIState) : UIState :=
  if st.tree.isBusy then
    { st with tree := st.tree.abortReading,
              statusMessage := "Reading aborted." }
  else st

/-- MainWindow::askReadCache: ask for a cache file name; when one is
given, first clear the tree model, then read the cache file into the
tree.  The fileContents argument models what reading the chosen file from
disk yields. -/
def askReadCache (st : UIState) (dlg : String)
    (fileContents : Option CacheFile) : UIState :=
  if dlg = "" then st
  else
    { st with tree := ((st.tree.clear).readCache fileContents).1 }

/-- MainWindow::askWriteCache: ask for a file name; when one is given,
write the cache and show the success or the error message strictly
according to the boolean writeCache returned. -/
def askWriteCache (st : UIState) (dlg : String) (ioOk : Bool)
    (written : Nat) : UIState :=
  if dlg = "" then st
  else
    { st with
      disk := (st.tree.writeCache st.disk dlg ioOk written).1,
      statusMessage :=
        if (st.tree.writeCache st.disk dlg ioOk written).2 then
          "Directory tree written to file " ++ dlg
        else "ERROR writing cache file " ++ dlg }

/-- MainWindow::showProgress: show the progress text in the status bar. -/
def showProgress (st : UIState) (text : String) : UIState :=
  { st with statusMessage := text }

/-- MainWindow::readingFinished: show Ready, expand the tree view to
level 1, and sort by the total-size column in descending order. -/
def readingFinished (st : UIState) : UIState :=
  { expandTreeToLevel { st with statusMessage := "Ready." } 1 with
      sortedByTotalSizeDesc := true }

/-- MainWindow::notImplemented and the logging-only debug slots
(itemClicked, selectionChanged, currentItemChanged, currentChanged): they
pop a message box or write to the log and touch none of the modelled
state. -/
def loggingSlot (st : UIState) : UIState := st

/-- The tree signals the constructor connects: startingReading, finished
and aborted drive updateActions (and finished first drives
readingFinished, connected earlier). -/
inductive TreeSignal where
  | startingReading
  | finished
  | aborted
deriving DecidableEq, Repr

/-- Delivery of one tree signal: the tree emits it after its scan state
changed accordingly, and the slots connected in the constructor run in
connection order: finished runs readingFinished then updateActions;
startingReading and aborted run updateActions. -/
def deliverTreeSignal (st : UIState) (sig : TreeSignal) : UIState :=
  match sig with
  | .startingReading =>
      updateActions { st with tree := { st.tree with scanState := .scanning } }
  | .finished =>
      updateActions (readingFinished
        { st with tree := { st.tree with scanState := .finished } })
  | .aborted =>
      updateActions { st with tree := { st.tree with scanState := .aborted } }

/-- The button of the unsaved-changes question box, when it is shown. -/
inductive CloseButton where
  | save
  | discard
  | cancel
deriving DecidableEq, Repr

/-- MainWindow::closeEvent: when the modified flag is set, show the
unsaved-changes question box and ignore the event on Cancel; otherwise
accept without asking.  The result is (accepted, promptShown). -/
def closeEvent (st : UIState) (button : CloseButton) : Bool × Bool :=
  if st.modified then
    if button = .cancel then (false, true) else (true, true)
  else (true, false)

/-- One invocation of a slot of the main window, carrying the external
inputs the slot consumes (dialog results, file contents, io outcomes,
signal payloads). -/
inductive SlotCall where
  | openUrlCall (url : String)
  | askOpenUrlCall (dlg : String)
  | refreshAllCall (dlg : String)
  | stopReadingCall
  | askReadCacheCall (dlg : String) (fileContents : Option CacheFile)
  | askWriteCacheCall (dlg : String) (ioOk : Bool) (written : Nat)
  | expandTreeToLevelCall (level : Int)
  | showProgressCall (text : String)
  | readingFinishedCall
  | updateActionsCall
  | notImplementedCall
  | itemClickedCall
  | selectionChangedCall
  | currentItemChangedCall
  | currentChangedCall
  | signalDelivery (sig : TreeSignal)

/-- Running one slot invocation on the window state. -/
def runSlot (st : UIState) : SlotCall → UIState
  | .openUrlCall url => openUrl st url
  | .askOpenUrlCall dlg => askOpenUrl st dlg
  | .refreshAllCall dlg => refreshAll st dlg
  | .stopReadingCall => stopReading st
  | .askReadCacheCall dlg c => askReadCache st dlg c
  | .askWriteCacheCall dlg ok w => askWriteCache st dlg ok w
  | .expandTreeToLevelCall level => expandTreeToLevel st level
  | .showProgressCall text => showProgress st text
  | .readingFinishedCall => readingFinished st
  | .updateActionsCall => updateActions st
  | .notImplementedCall => loggingSlot st
  | .itemClickedCall => loggingSlot st
  | .selectionChangedCall => loggingSlot st
  | .currentItemChangedCall => loggingSlot st
  | .currentChangedCall => loggingSlot st
  | .signalDelivery sig => deliverTreeSignal st sig

/-- The window state right after the constructor: the modified flag is
initialized to false, the tree is empty and idle, and updateActions has
run once at the end of the constructor. -/
def initUIState (disk : String → Option (List CacheLine)) : UIState :=
  updateActions
    { modified := false, statusMessage := "",
      actions := ⟨false, false, false, false⟩, view := .initial,
      sortedByTotalSizeDesc := false,
      tree := { root := none, url := "", scanState := .idle },
      disk := disk }

/-- The signal-mapper table built by MainWindow::connectActions: each
expand-tree-level action is mapped to its level, and the close-all-levels
action is mapped to level 0. -/
def treeLevelMappings : List (String × Int) :=
  [("actionExpandTreeLevel0", 0), ("actionExpandTreeLevel1", 1),
   ("actionExpandTreeLevel2", 2), ("actionExpandTreeLevel3", 3),
   ("actionExpandTreeLevel4", 4), ("actionExpandTreeLevel5", 5),
   ("actionExpandTreeLevel6", 6), ("actionExpandTreeLevel7", 7),
   ("actionExpandTreeLevel8", 8), ("actionExpandTreeLevel9", 9),
   ("actionCloseAllTreeLevels", 0)]

/-- An empty disk used for concrete witnesses. -/
def sampleDisk : String → Option (List CacheLine) := fun _ => none

/-- The freshly constructed window, for concrete witnesses. -/
def sampleIdleState : UIState := initUIState sampleDisk

/-- A window with a finished scan of the path /data loaded, for concrete
witnesses and the C1 counterexample. -/
def sampleLoadedState : UIState :=
  { modified := false, statusMessage := "Ready.",
    actions := ⟨false, true, true, true⟩, view := .expandedToDepth 0,
    sortedByTotalSizeDesc := true,
    tree := { root := some (.dir "data" zeroOwn zeroCum []),
              url := "/data", scanState := .finished },
    disk := sampleDisk }

theorem cumAdd_zero_left (a : CumMetrics) : cumAdd zeroCum a = a := by
  simp [cumAdd, zeroCum]

theorem cumAdd_zero_right (a : CumMetrics) : cumAdd a zeroCum = a := by
  simp [cumAdd, zeroCum]

theorem cumAdd_comm (a b : CumMetrics) : cumAdd a b = cumAdd b a := by
  simp [cumAdd, Nat.add_comm, Nat.max_comm]

theorem cumAdd_assoc (a b c : CumMetrics) :
    cumAdd (cumAdd a b) c = cumAdd a (cumAdd b c) := by
  simp [cumAdd, Nat.add_assoc, Nat.max_assoc]

theorem cumAdd_right_comm (a b c : CumMetrics) :
    cumAdd (cumAdd a b) c = cumAdd (cumAdd a c) b := by
  simp [cumAdd, Nat.add_right_comm, Nat.max_right_comm]

theorem computeCum_nil : computeCum [] = zeroCum := rfl

theorem computeCum_cons (c : Entry) (cs : List Entry) :
    computeCum (c :: cs) = cumAdd (contrib c) (computeCum cs) := rfl

theorem computeCum_append_one (cs : List Entry) (c : Entry) :
    computeCum (cs ++ [c]) = cumAdd (computeCum cs) (contrib c) := by
  induction cs with
  | nil =>
      rw [List.nil_append, computeCum_cons, computeCum_nil, cumAdd_zero_left,
          cumAdd_zero_right]
  | cons hd tl ih =>
      simp only [List.cons_append, computeCum_cons, ih, cumAdd_assoc]

theorem computeCum_set (cs : List Entry) (i : Nat) (old new : Entry) (d : CumMetrics)
    (hget : cs[i]? = some old) (hnew : contrib new = cumAdd (contrib old) d) :
    computeCum (cs.set i new) = cumAdd (computeCum cs) d := by
  induction cs generalizing i with
  | nil => simp at hget
  | cons hd tl ih =>
      cases i with
      | zero =>
          simp only [List.getElem?_cons_zero, Option.some.injEq] at hget
          subst hget
          simp only [List.set_cons_zero, computeCum_cons, hnew]
          exact cumAdd_right_comm _ _ _
      | succ j =>
          simp only [List.getElem?_cons_succ] at hget
          simp only [List.set_cons_succ, computeCum_cons, ih j hget, ← cumAdd_assoc]

theorem sumBy_computeCum (f : CumMetrics → Nat)
    (hf : ∀ a b, f (cumAdd a b) = f a + f b) (hz : f zeroCum = 0)
    (cs : List Entry) : f (computeCum cs) = sumBy f cs := by
  induction cs with
  | nil => simpa [computeCum_nil, sumBy] using hz
  | cons hd tl ih =>
      rw [computeCum_cons, hf, ih]
      simp [sumBy]

theorem sumBy_get_le (f : CumMetrics → Nat) (cs : List Entry) (i : Nat) (old : Entry)
    (hget : cs[i]? = some old) : f (contrib old) ≤ sumBy f cs := by
  induction cs generalizing i with
  | nil => simp at hget
  | cons hd tl ih =>
      cases i with
      | zero =>
          simp only [List.getElem?_cons_zero, Option.some.injEq] at hget
          subst hget
          simp [sumBy]
      | succ j =>
          simp only [List.getElem?_cons_succ] at hget
          have := ih j hget
          simp [sumBy] at this ⊢
          omega

theorem sumBy_set (f : CumMetrics → Nat) (cs : List Entry) (i : Nat) (old new : Entry)
    (hget : cs[i]? = some old) :
    sumBy f (cs.set i new) + f (contrib old) = sumBy f cs + f (contrib new) := by
  induction cs generalizing i with
  | nil => simp at hget
  | cons hd tl ih =>
      cases i with
      | zero =>
          simp only [List.getElem?_cons_zero, Option.some.injEq] at hget
          subst hget
          simp [sumBy]
          omega
      | succ j =>
          simp only [List.getElem?_cons_succ] at hget
          have := ih j hget
          simp [sumBy] at this ⊢
          omega

theorem sumBy_eraseIdx (f : CumMetrics → Nat) (cs : List Entry) (i : Nat) (old : Entry)
    (hget : cs[i]? = some old) :
    sumBy f (cs.eraseIdx i) + f (contrib old) = sumBy f cs := by
  induction cs generalizing i with
  | nil => simp at hget
  | cons hd tl ih =>
      cases i with
      | zero =>
          simp only [List.getElem?_cons_zero, Option.some.injEq] at hget
          subst hget
          simp [sumBy]
          omega
      | succ j =>
          simp only [List.getElem?_cons_succ] at hget
          have := ih j hget
          simp [sumBy, List.eraseIdx] at this ⊢
          omega

theorem consistentAll_cons (c : Entry) (cs : List Entry) :
    consistentAll (c :: cs) = (consistentB c && consistentAll cs) := rfl

theorem consistentAll_append_one (cs : List Entry) (c : Entry)
    (h1 : consistentAll cs = true) (h2 : consistentB c = true) :
    consistentAll (cs ++ [c]) = true := by
  induction cs with
  | nil => simpa [consistentAll] using h2
  | cons hd tl ih =>
      simp only [List.cons_append, consistentAll_cons, Bool.and_eq_true] at h1 ⊢
      exact ⟨h1.1, ih h1.2⟩

theorem consistentAll_get (cs : List Entry) (i : Nat) (old : Entry)
    (hget : cs[i]? = some old) (h : consistentAll cs = true) :
    consistentB old = true := by
  induction cs generalizing i with
  | nil => simp at hget
  | cons hd tl ih =>
      simp only [consistentAll_cons, Bool.and_eq_true] at h
      cases i with
      | zero =>
          simp only [List.getElem?_cons_zero, Option.some.injEq] at hget
          subst hget
          exact h.1
      | succ j =>
          simp only [List.getElem?_cons_succ] at hget
          exact ih j hget h.2

theorem consistentAll_set (cs : List Entry) (i : Nat) (new : Entry)
    (h : consistentAll cs = true) (hnew : consistentB new = true) :
    consistentAll (cs.set i new) = true := by
  induction cs generalizing i with
  | nil => simpa [List.set]
  | cons hd tl ih =>
      simp only [consistentAll_cons, Bool.and_eq_true] at h
      cases i with
      | zero => simp [List.set_cons_zero, consistentAll_cons, hnew, h.2]
      | succ j => simp [List.set_cons_succ, consistentAll_cons, h.1, ih j h.2]

theorem consistentAll_eraseIdx (cs : List Entry) (i : Nat)
    (h : consistentAll cs = true) : consistentAll (cs.eraseIdx i) = true := by
  induction cs generalizing i with
  | nil => simpa [List.eraseIdx]
  | cons hd tl ih =>
      simp only [consistentAll_cons, Bool.and_eq_true] at h
      cases i with
      | zero => simpa [List.eraseIdx] using h.2
      | succ j => simp [List.eraseIdx, consistentAll_cons, h.1, ih j h.2]

theorem replaced_field (f : CumMetrics → Nat)
    (hf : ∀ a b, f (cumAdd a b) = f a + f b) (hz : f zeroCum = 0)
    (cs : List Entry) (i : Nat) (old new : Entry) (hget : cs[i]? = some old) :
    f (computeCum cs) - f (contrib old) + f (contrib new) =
      f (computeCum (cs.set i new)) := by
  have h1 := sumBy_computeCum f hf hz cs
  have h2 := sumBy_computeCum f hf hz (cs.set i new)
  have h3 := sumBy_set f cs i old new hget
  have h4 := sumBy_get_le f cs i old hget
  omega

theorem erased_field (f : CumMetrics → Nat)
    (hf : ∀ a b, f (cumAdd a b) = f a + f b) (hz : f zeroCum = 0)
    (cs : List Entry) (i : Nat) (old : Entry) (hget : cs[i]? = some old) :
    f (computeCum cs) - f (contrib old) + f zeroCum =
      f (computeCum (cs.eraseIdx i)) := by
  have h1 := sumBy_computeCum f hf hz cs
  have h2 := sumBy_computeCum f hf hz (cs.eraseIdx i)
  have h3 := sumBy_eraseIdx f cs i old hget
  have h4 := sumBy_get_le f cs i old hget
  omega

theorem replacedCum_set_consistent (cs : List Entry) (i : Nat) (old new : Entry)
    (hget : cs[i]? = some old) :
    replacedCum (computeCum cs) (contrib old) (contrib new) (cs.set i new) =
      computeCum (cs.set i new) := by
  apply CumMetrics.ext
  · exact replaced_field CumMetrics.totalSize (fun a b => rfl) rfl cs i old new hget
  · exact replaced_field CumMetrics.totalAllocated (fun a b => rfl) rfl cs i old new hget
  · exact replaced_field CumMetrics.totalItems (fun a b => rfl) rfl cs i old new hget
  · exact replaced_field CumMetrics.totalSubDirs (fun a b => rfl) rfl cs i old new hget
  · rfl

theorem replacedCum_erase_consistent (cs : List Entry) (i : Nat) (old : Entry)
    (hget : cs[i]? = some old) :
    replacedCum (computeCum cs) (contrib old) zeroCum (cs.eraseIdx i) =
      computeCum (cs.eraseIdx i) := by
  apply CumMetrics.ext
  · exact erased_field CumMetrics.totalSize (fun a b => rfl) rfl cs i old hget
  · exact erased_field CumMetrics.totalAllocated (fun a b => rfl) rfl cs i old hget
  · exact erased_field CumMetrics.totalItems (fun a b => rfl) rfl cs i old hget
  · exact erased_field CumMetrics.totalSubDirs (fun a b => rfl) rfl cs i old hget
  · rfl

theorem contrib_dir_cumAdd (n : String) (o : OwnMetrics) (cum d : CumMetrics)
    (cs cs2 : List Entry) :
    contrib (.dir n o (cumAdd cum d) cs2) = cumAdd (contrib (.dir n o cum cs)) d := by
  simp only [contrib, cumAdd, CumMetrics.mk.injEq]
  refine ⟨trivial, trivial, by omega, by omega, (Nat.max_assoc _ _ _).symm⟩

theorem attach_contrib (p : List Nat) (t c t' : Entry)
    (h : attachChild t p c = some t') :
    contrib t' = cumAdd (contrib t) (contrib c) := by
  cases t with
  | leaf n k o => cases p <;> simp [attachChild] at h
  | dir n o cum cs =>
      cases p with
      | nil =>
          simp only [attachChild, Option.some.injEq] at h
          subst h
          exact contrib_dir_cumAdd n o cum (contrib c) cs _
      | cons i p =>
          simp only [attachChild] at h
          cases hget : cs[i]? with
          | none => simp [hget] at h
          | some old =>
              simp only [hget] at h
              cases hrec : attachChild old p c with
              | none => simp [hrec] at h
              | some new =>
                  simp only [hrec, Option.some.injEq] at h
                  subst h
                  exact contrib_dir_cumAdd n o cum (contrib c) cs _

theorem attach_consistent (p : List Nat) (t c t' : Entry)
    (h : attachChild t p c = some t')
    (ht : consistentB t = true) (hc : consistentB c = true) :
    consistentB t' = true := by
  induction p generalizing t t' with
  | nil =>
      cases t with
      | leaf n k o => simp [attachChild] at h
      | dir n o cum cs =>
          simp only [attachChild, Option.some.injEq] at h
          subst h
          simp only [consistentB, Bool.and_eq_true, decide_eq_true_eq] at ht ⊢
          refine ⟨?_, consistentAll_append_one cs c ht.2 hc⟩
          rw [computeCum_append_one, ht.1]
  | cons i p ih =>
      cases t with
      | leaf n k o => simp [attachChild] at h
      | dir n o cum cs =>
          simp only [attachChild] at h
          cases hget : cs[i]? with
          | none => simp [hget] at h
          | some old =>
              simp only [hget] at h
              cases hrec : attachChild old p c with
              | none => simp [hrec] at h
              | some new =>
                  simp only [hrec, Option.some.injEq] at h
                  subst h
                  simp only [consistentB, Bool.and_eq_true, decide_eq_true_eq] at ht ⊢
                  have hold := consistentAll_get cs i old hget ht.2
                  have hnewc := ih old new hrec hold
                  have hcon := attach_contrib p old c new hrec
                  refine ⟨?_, consistentAll_set cs i new ht.2 hnewc⟩
                  rw [computeCum_set cs i old new (contrib c) hget hcon, ht.1]

theorem detach_consistent (p : List Nat) (t t' : Entry)
    (h : detachChild t p = some t') (ht : consistentB t = true) :
    consistentB t' = true := by
  induction p generalizing t t' with
  | nil => cases t <;> simp [detachChild] at h
  | cons i rest ih =>
      cases t with
      | leaf n k o => simp [detachChild] at h
      | dir n o cum cs =>
          cases rest with
          | nil =>
              simp only [detachChild] at h
              cases hget : cs[i]? with
              | none => simp [hget] at h
              | some old =>
                  simp only [hget, Option.some.injEq] at h
                  subst h
                  simp only [consistentB, Bool.and_eq_true, decide_eq_true_eq] at ht ⊢
                  refine ⟨?_, consistentAll_eraseIdx cs i ht.2⟩
                  rw [ht.1]
                  exact replacedCum_erase_consistent cs i old hget
          | cons j ps =>
              simp only [detachChild] at h
              cases hget : cs[i]? with
              | none => simp [hget] at h
              | some old =>
                  simp only [hget] at h
                  cases hrec : detachChild old (j :: ps) with
                  | none => simp [hrec] at h
                  | some new =>
                      simp only [hrec, Option.some.injEq] at h
                      subst h
                      simp only [consistentB, Bool.and_eq_true,
                                 decide_eq_true_eq] at ht ⊢
                      have hold := consistentAll_get cs i old hget ht.2
                      have hnewc := ih old new hrec hold
                      refine ⟨?_, consistentAll_set cs i new ht.2 hnewc⟩
                      rw [ht.1]
                      exact replacedCum_set_consistent cs i old new hget

theorem update_consistent (p : List Nat) (t : Entry) (newOwn : OwnMetrics)
    (t' : Entry) (h : updateOwn t p newOwn = some t')
    (ht : consistentB t = true) : consistentB t' = true := by
  induction p generalizing t t' with
  | nil =>
      cases t with
      | leaf n k o =>
          simp only [updateOwn, Option.some.injEq] at h
          subst h
          simp [consistentB]
      | dir n o cum cs => simp [updateOwn] at h
  | cons i p ih =>
      cases t with
      | leaf n k o => simp [updateOwn] at h
      | dir n o cum cs =>
          simp only [updateOwn] at h
          cases hget : cs[i]? with
          | none => simp [hget] at h
          | some old =>
              simp only [hget] at h
              cases hrec : updateOwn old p newOwn with
              | none => simp [hrec] at h
              | some new =>
                  simp only [hrec, Option.some.injEq] at h
                  subst h
                  simp only [consistentB, Bool.and_eq_true, decide_eq_true_eq] at ht ⊢
                  have hold := consistentAll_get cs i old hget ht.2
                  have hnewc := ih old new hrec hold
                  refine ⟨?_, consistentAll_set cs i new ht.2 hnewc⟩
                  rw [ht.1]
                  exact replacedCum_set_consistent cs i old new hget

theorem freshEntry_consistent (n : String) (k : Option LeafKind) (o : OwnMetrics) :
    consistentB (freshEntry n k o) = true := by
  cases k <;> simp [freshEntry, consistentB, consistentAll, computeCum_nil]

theorem applyOp_consistent (t : Entry) (op : TreeOp)
    (ht : consistentB t = true) : consistentB (applyOp t op) = true := by
  cases op with
  | attach p n k o =>
      simp only [applyOp]
      cases h : attachChild t p (freshEntry n k o) with
      | none => simpa using ht
      | some t' =>
          simpa using attach_consistent p t _ t' h ht (freshEntry_consistent n k o)
  | detach p =>
      simp only [applyOp]
      cases h : detachChild t p with
      | none => simpa using ht
      | some t' => simpa using detach_consistent p t t' h ht
  | update p o =>
      simp only [applyOp]
      cases h : updateOwn t p o with
      | none => simpa using ht
      | some t' => simpa using update_consistent p t o t' h ht

/-- C2: for every tree satisfying the aggregation invariant, after any
sequence of attachChild / detachChild / updateOwnMetrics operations, every
directory node's cumulative metrics equal the sum of its children's
cumulative-or-own contributions recursively, with mtime aggregated as a max
and excluded / read-error placeholder nodes contributing zero (these
aggregation rules are the definitions of contrib, cumAdd and computeCum,
and consistentB states them recursively for every directory node). -/
theorem c2_aggregation_invariant (t : Entry) (ops : List TreeOp)
    (ht : consistentB t = true) : consistentB (applyOps t ops) = true := by
  induction ops generalizing t with
  | nil => exact ht
  | cons op rest ih => exact ih (applyOp t op) (applyOp_consistent t op ht)

/-- Witness for C2 at a concrete tree and a concrete operation sequence
exercising attach (leaf and empty directory), update and detach, including
an ignored placeholder. -/
theorem c2_aggregation_invariant_witness :
    consistentB (applyOps
      (.dir "root" ⟨4096, 8, 50⟩ ⟨100, 3, 1, 0, 70⟩
        [.leaf "a" .file ⟨100, 3, 70⟩, .leaf "snap" .ignored ⟨0, 0, 0⟩])
      [.attach [] "sub" none ⟨4096, 8, 10⟩,
       .attach [2] "b" (some .file) ⟨7, 1, 99⟩,
       .update [0] ⟨250, 4, 80⟩,
       .detach [2, 0],
       .attach [] "c" (some .symlink) ⟨11, 1, 82⟩]) = true :=
  c2_aggregation_invariant _ _ (by decide)

theorem pathLE_refl (p : List String) : pathLE p p = true := by
  induction p with
  | nil => rfl
  | cons a as ih => simp [pathLE, ih]

theorem pathLE_of_concat (p : List String) (x : String) (q : List String)
    (h : pathLE (p ++ [x]) q = true) : pathLE p q = true := by
  induction p generalizing q with
  | nil => rfl
  | cons a as ih =>
      cases q with
      | nil => simp [pathLE] at h
      | cons b bs =>
          simp only [List.cons_append, pathLE, Bool.and_eq_true] at h ⊢
          exact ⟨h.1, ih bs h.2⟩

theorem pathLE_length (p q : List String) (h : pathLE p q = true) :
    p.length ≤ q.length := by
  induction p generalizing q with
  | nil => simp
  | cons a as ih =>
      cases q with
      | nil => simp [pathLE] at h
      | cons b bs =>
          simp only [pathLE, Bool.and_eq_true] at h
          simpa using ih bs h.2

theorem pathLE_concat_self (p : List String) (x : String) :
    pathLE (p ++ [x]) p = false := by
  cases h : pathLE (p ++ [x]) p with
  | false => rfl
  | true => exact absurd (pathLE_length _ _ h) (by simp)

theorem encodeList_cons_head (path : List String) (c : Entry) (cs : List Entry) :
    ∃ l rest2, encodeList path (c :: cs) = l :: rest2 ∧ l.path.dropLast = path := by
  cases c with
  | leaf n k o =>
      refine ⟨⟨.leafLine k, path ++ [n], o⟩, encodeList path cs, ?_, ?_⟩
      · simp [encodeList, encodeEntry]
      · simp
  | dir n o cum kids =>
      refine ⟨⟨.dirLine, path ++ [n], o⟩,
              encodeList (path ++ [n]) kids ++ encodeList path cs, ?_, ?_⟩
      · simp [encodeList, encodeEntry]
      · simp

theorem decodeChildren_encodeList :
    ∀ (fuel : Nat) (cs : List Entry) (path : List String) (rest : List CacheLine),
    consistentAll cs = true → stopsBelow path rest →
    (encodeList path cs).length + rest.length < fuel →
    decodeChildren fuel path (encodeList path cs ++ rest) = some (cs, rest) := by
  intro fuel
  induction fuel with
  | zero => intro cs path rest _ _ hfuel; omega
  | succ n ih =>
      intro cs path rest hcons hstop hfuel
      cases cs with
      | nil =>
          cases rest with
          | nil => simp [encodeList, decodeChildren]
          | cons l rest2 =>
              have hne : ¬ (l.path.dropLast = path ∧ l.path ≠ []) := by
                intro hcontra
                have hpath : pathLE path l.path.dropLast = true := by
                  rw [hcontra.1]; exact pathLE_refl path
                simp only [stopsBelow] at hstop
                rw [hstop] at hpath
                cases hpath
              simp [encodeList, decodeChildren, hne]
      | cons c cs2 =>
          cases c with
          | leaf n0 k o =>
              have hcons2 : consistentAll cs2 = true := by
                simp only [consistentAll_cons, Bool.and_eq_true] at hcons
                exact hcons.2
              have heq : encodeList path (Entry.leaf n0 k o :: cs2) ++ rest =
                  (⟨.leafLine k, path ++ [n0], o⟩ : CacheLine) ::
                    (encodeList path cs2 ++ rest) := by
                simp [encodeList, encodeEntry]
              have hlen : (encodeList path (Entry.leaf n0 k o :: cs2)).length =
                  1 + (encodeList path cs2).length := by
                simp [encodeList, encodeEntry]
                omega
              have hrec := ih cs2 path rest hcons2 hstop (by omega)
              rw [heq]
              simp only [decodeChildren]
              rw [if_pos ⟨by simp, by simp⟩]
              rw [hrec]
              simp
          | dir n0 o cum kids =>
              simp only [consistentAll_cons, Bool.and_eq_true] at hcons
              have hcons2 : consistentAll cs2 = true := hcons.2
              have hdir := hcons.1
              simp only [consistentB, Bool.and_eq_true, decide_eq_true_eq] at hdir
              have hkids : consistentAll kids = true := hdir.2
              have hcum : cum = computeCum kids := hdir.1
              have heq : encodeList path (Entry.dir n0 o cum kids :: cs2) ++ rest =
                  (⟨.dirLine, path ++ [n0], o⟩ : CacheLine) ::
                    (encodeList (path ++ [n0]) kids ++
                      (encodeList path cs2 ++ rest)) := by
                simp [encodeList, encodeEntry]
              have hlenA : (encodeList path (Entry.dir n0 o cum kids :: cs2)).length =
                  1 + (encodeList (path ++ [n0]) kids).length +
                    (encodeList path cs2).length := by
                simp [encodeList, encodeEntry]
                omega
              have hlenB : (encodeList path cs2 ++ rest).length =
                  (encodeList path cs2).length + rest.length := by simp
              have hstop1 : stopsBelow (path ++ [n0]) (encodeList path cs2 ++ rest) := by
                cases cs2 with
                | nil =>
                    simp only [encodeList, List.nil_append]
                    cases rest with
                    | nil => exact trivial
                    | cons l rest2 =>
                        simp only [stopsBelow] at hstop ⊢
                        cases hval : pathLE (path ++ [n0]) l.path.dropLast with
                        | false => rfl
                        | true =>
                            rw [pathLE_of_concat path n0 _ hval] at hstop
                            cases hstop
                | cons c2 cs3 =>
                    obtain ⟨l, rest2, hl, hdrop⟩ := encodeList_cons_head path c2 cs3
                    rw [hl]
                    simp only [List.cons_append, stopsBelow, hdrop]
                    exact pathLE_concat_self path n0
              have hrec1 := ih kids (path ++ [n0]) (encodeList path cs2 ++ rest)
                hkids hstop1 (by omega)
              have hrec2 := ih cs2 path rest hcons2 hstop (by omega)
              rw [heq]
              simp only [decodeChildren]
              rw [if_pos ⟨by simp, by simp⟩]
              rw [hrec1]
              simp only []
              rw [hrec2]
              simp [hcum]

/-- C3: for every tree satisfying the aggregation invariant, including
trees containing zero-byte files, empty directories and excluded
placeholder nodes, decoding the encoding of the tree succeeds and returns
the tree itself, so every node's own metrics and every directory's
cumulative metrics are exactly those of the original (lossless cache
round-trip at any depth). -/
theorem c3_cache_roundtrip (t : Entry) (ht : consistentB t = true) :
    decode ⟨encodeEntry [] t, false⟩ = .ok t := by
  have hconsAll : consistentAll [t] = true := by
    simp [consistentAll_cons, ht, consistentAll]
  have hlist : encodeList [] [t] = encodeEntry [] t := by
    simp [encodeList]
  have h := decodeChildren_encodeList ((encodeEntry [] t).length + 1) [t] [] []
    hconsAll trivial (by simp [hlist])
  simp only [List.append_nil, hlist] at h
  simp only [decode, Bool.false_eq_true, if_false, h]

/-- Witness for C3 at a concrete tree containing a zero-byte file, an
empty directory and an ignored placeholder. -/
theorem c3_cache_roundtrip_witness :
    consistentB (.dir "root" ⟨4096, 8, 3⟩ ⟨0, 0, 2, 1, 5⟩
      [.leaf "zero" .file ⟨0, 0, 5⟩,
       .dir "emptyDir" ⟨4096, 8, 3⟩ ⟨0, 0, 0, 0, 0⟩ [],
       .leaf ".snapshot" .ignored ⟨0, 0, 0⟩]) = true ∧
    decode ⟨encodeEntry []
      (.dir "root" ⟨4096, 8, 3⟩ ⟨0, 0, 2, 1, 5⟩
        [.leaf "zero" .file ⟨0, 0, 5⟩,
         .dir "emptyDir" ⟨4096, 8, 3⟩ ⟨0, 0, 0, 0, 0⟩ [],
         .leaf ".snapshot" .ignored ⟨0, 0, 0⟩]), false⟩ =
      .ok (.dir "root" ⟨4096, 8, 3⟩ ⟨0, 0, 2, 1, 5⟩
        [.leaf "zero" .file ⟨0, 0, 5⟩,
         .dir "emptyDir" ⟨4096, 8, 3⟩ ⟨0, 0, 0, 0, 0⟩ [],
         .leaf ".snapshot" .ignored ⟨0, 0, 0⟩]) :=
  ⟨by decide, c3_cache_roundtrip _ (by decide)⟩

mutual

theorem scanFS_noRules_ignored (path : List String) (fs : FSNode) :
    countIgnored (scanFS [] path fs) = 0 := by
  cases fs with
  | file n o => simp [scanFS, countIgnored]
  | dir n o cs =>
      simp only [scanFS, excludeMatches, List.any_nil, Bool.false_eq_true,
                 if_false, countIgnored]
      exact scanList_noRules_ignored (path ++ [n]) cs

theorem scanList_noRules_ignored (path : List String) (l : List FSNode) :
    countIgnoredList (scanList [] path l) = 0 := by
  cases l with
  | nil => simp [scanList, countIgnoredList]
  | cons c cs =>
      simp only [scanList, countIgnoredList]
      rw [scanFS_noRules_ignored path c, scanList_noRules_ignored path cs]

end

mutual

theorem scanFS_clean (rules : List ExcludeRule) (path : List String) (fs : FSNode)
    (h : cleanFS rules path fs = true) :
    scanFS rules path fs = scanFS [] path fs := by
  cases fs with
  | file n o => simp [scanFS]
  | dir n o cs =>
      simp only [cleanFS, Bool.and_eq_true, Bool.not_eq_eq_eq_not,
                 Bool.not_true] at h
      simp only [scanFS, excludeMatches, List.any_nil, Bool.false_eq_true,
                 if_false]
      rw [if_neg]
      · rw [scanList_clean rules (path ++ [n]) cs h.2]
      · rw [show (rules.any fun r => r (path ++ [n])) = false from h.1]
        exact Bool.false_ne_true

theorem scanList_clean (rules : List ExcludeRule) (path : List String)
    (l : List FSNode) (h : cleanList rules path l = true) :
    scanList rules path l = scanList [] path l := by
  cases l with
  | nil => simp [scanList]
  | cons c cs =>
      simp only [cleanList, Bool.and_eq_true] at h
      simp only [scanList]
      rw [scanFS_clean rules path c h.1, scanList_clean rules path cs h.2]

end

/-- C5: with the startup exclude rule for .snapshot registered
(MainWindow.cpp line 91), scanning a root that contains a subdirectory
named .snapshot with 10 files inside produces exactly one ignored
placeholder node, standing for .snapshot, whose contribution to cumulative
metrics is zero (zero size and zero items), while every sibling subtree
free of matching directories is scanned exactly as it would be with no
exclude rules at all. -/
theorem c5_snapshot_exclusion (rn : String) (rOwn sOwn : OwnMetrics)
    (snapFiles siblings : List FSNode)
    (_hten : snapFiles.length = 10)
    (hroot : excludeMatches startupRules [rn] = false)
    (hsib : cleanList startupRules [rn] siblings = true) :
    scanFS startupRules []
        (.dir rn rOwn (.dir ".snapshot" sOwn snapFiles :: siblings)) =
      .dir rn rOwn
        (computeCum (.leaf ".snapshot" .ignored zeroOwn ::
          scanList [] [rn] siblings))
        (.leaf ".snapshot" .ignored zeroOwn :: scanList [] [rn] siblings) ∧
    contrib (.leaf ".snapshot" .ignored zeroOwn) = zeroCum ∧
    countIgnored (scanFS startupRules []
        (.dir rn rOwn (.dir ".snapshot" sOwn snapFiles :: siblings))) = 1 := by
  have hsnap : scanFS startupRules [rn] (.dir ".snapshot" sOwn snapFiles) =
      .leaf ".snapshot" .ignored zeroOwn := by
    simp [scanFS, excludeMatches, startupRules, snapshotRule]
  have hsibs : scanList startupRules [rn] siblings = scanList [] [rn] siblings :=
    scanList_clean startupRules [rn] siblings hsib
  have hlist : scanList startupRules [rn]
        (FSNode.dir ".snapshot" sOwn snapFiles :: siblings) =
      .leaf ".snapshot" .ignored zeroOwn :: scanList [] [rn] siblings := by
    rw [scanList, hsnap, hsibs]
  have hmain : scanFS startupRules []
        (.dir rn rOwn (.dir ".snapshot" sOwn snapFiles :: siblings)) =
      .dir rn rOwn
        (computeCum (.leaf ".snapshot" .ignored zeroOwn ::
          scanList [] [rn] siblings))
        (.leaf ".snapshot" .ignored zeroOwn :: scanList [] [rn] siblings) := by
    rw [scanFS, List.nil_append]
    rw [if_neg (by rw [hroot]; exact Bool.false_ne_true)]
    rw [hlist]
  refine ⟨hmain, by simp [contrib, zeroOwn, zeroCum], ?_⟩
  rw [hmain]
  simp only [countIgnored, countIgnoredList]
  rw [scanList_noRules_ignored [rn] siblings]
  simp

/-- Witness for C5: a concrete root with a .snapshot subdirectory holding
10 files and two sibling subtrees that are scanned normally. -/
theorem c5_snapshot_exclusion_witness :
    scanFS startupRules []
        (.dir "root" ⟨4096, 8, 90⟩
          (.dir ".snapshot" ⟨4096, 8, 80⟩
            [.file "f0" ⟨1, 1, 10⟩, .file "f1" ⟨2, 1, 11⟩,
             .file "f2" ⟨3, 1, 12⟩, .file "f3" ⟨4, 1, 13⟩,
             .file "f4" ⟨5, 1, 14⟩, .file "f5" ⟨6, 1, 15⟩,
             .file "f6" ⟨7, 1, 16⟩, .file "f7" ⟨8, 1, 17⟩,
             .file "f8" ⟨9, 1, 18⟩, .file "f9" ⟨10, 1, 19⟩] ::
           [.dir "docs" ⟨4096, 8, 60⟩ [.file "a.txt" ⟨100, 1, 55⟩],
            .file "readme" ⟨20, 1, 42⟩])) =
      .dir "root" ⟨4096, 8, 90⟩
        (computeCum (.leaf ".snapshot" .ignored zeroOwn ::
          scanList [] ["root"]
            [.dir "docs" ⟨4096, 8, 60⟩ [.file "a.txt" ⟨100, 1, 55⟩],
             .file "readme" ⟨20, 1, 42⟩]))
        (.leaf ".snapshot" .ignored zeroOwn ::
          scanList [] ["root"]
            [.dir "docs" ⟨4096, 8, 60⟩ [.file "a.txt" ⟨100, 1, 55⟩],
             .file "readme" ⟨20, 1, 42⟩]) ∧
    contrib (.leaf ".snapshot" .ignored zeroOwn) = zeroCum ∧
    countIgnored (scanFS startupRules []
        (.dir "root" ⟨4096, 8, 90⟩
          (.dir ".snapshot" ⟨4096, 8, 80⟩
            [.file "f0" ⟨1, 1, 10⟩, .file "f1" ⟨2, 1, 11⟩,
             .file "f2" ⟨3, 1, 12⟩, .file "f3" ⟨4, 1, 13⟩,
             .file "f4" ⟨5, 1, 14⟩, .file "f5" ⟨6, 1, 15⟩,
             .file "f6" ⟨7, 1, 16⟩, .file "f7" ⟨8, 1, 17⟩,
             .file "f8" ⟨9, 1, 18⟩, .file "f9" ⟨10, 1, 19⟩] ::
           [.dir "docs" ⟨4096, 8, 60⟩ [.file "a.txt" ⟨100, 1, 55⟩],
            .file "readme" ⟨20, 1, 42⟩]))) = 1 :=
  c5_snapshot_exclusion "root" ⟨4096, 8, 90⟩ ⟨4096, 8, 80⟩
    [.file "f0" ⟨1, 1, 10⟩, .file "f1" ⟨2, 1, 11⟩,
     .file "f2" ⟨3, 1, 12⟩, .file "f3" ⟨4, 1, 13⟩,
     .file "f4" ⟨5, 1, 14⟩, .file "f5" ⟨6, 1, 15⟩,
     .file "f6" ⟨7, 1, 16⟩, .file "f7" ⟨8, 1, 17⟩,
     .file "f8" ⟨9, 1, 18⟩, .file "f9" ⟨10, 1, 19⟩]
    [.dir "docs" ⟨4096, 8, 60⟩ [.file "a.txt" ⟨100, 1, 55⟩],
     .file "readme" ⟨20, 1, 42⟩]
    (by decide) (by decide) (by decide)

/-- C1 (amended): for every cache file whose decoding fails (malformed
content or an I/O error), readCache reports CacheFormatError or
CacheIOError and leaves the tree it is invoked on unchanged (atomic
replace-or-keep); however, the UI read-cache command clears the tree model
before invoking readCache, so after askReadCache on a bad file the
window's tree is the cleared tree (no root), not the previously loaded
one. -/
theorem c1_read_cache_atomicity (t : DirTree) (content : Option CacheFile)
    (st : UIState) (dlg : String) (e : CacheError)
    (hbad : readResult content = .error e) :
    (t.readCache content).1 = t ∧
    (t.readCache content).2 = some e ∧
    (e = .cacheFormatError ∨ e = .cacheIOError) ∧
    (dlg ≠ "" → (askReadCache st dlg content).tree.root = none) := by
  refine ⟨?_, ?_, ?_, ?_⟩
  · simp [DirTree.readCache, hbad]
  · simp [DirTree.readCache, hbad]
  · cases e
    · exact Or.inl rfl
    · exact Or.inr rfl
  · intro hdlg
    simp [askReadCache, hdlg, DirTree.readCache, hbad, DirTree.clear]

/-- C1 counterexample: with a tree loaded, invoking the read-cache command
of the window on a file whose decode fails (here an empty, headerless
cache file, a CacheFormatError) leaves the window's tree empty: the
previously loaded tree has been discarded, because askReadCache clears the
tree model before calling readCache, contradicting the claim that the UI
read-cache command must not discard the previously loaded tree on a bad
file. -/
theorem c1_read_cache_counterexample :
    readResult (some ⟨[], false⟩) = .error .cacheFormatError ∧
    sampleLoadedState.tree.root = some (.dir "data" zeroOwn zeroCum []) ∧
    (askReadCache sampleLoadedState "bad.cache" (some ⟨[], false⟩)).tree.root
      = none ∧
    (askReadCache sampleLoadedState "bad.cache" (some ⟨[], false⟩)).tree.root
      ≠ sampleLoadedState.tree.root := by
  refine ⟨rfl, rfl, rfl, ?_⟩
  intro h
  have h1 : (askReadCache sampleLoadedState "bad.cache"
      (some ⟨[], false⟩)).tree.root = none := rfl
  have h2 : sampleLoadedState.tree.root =
      some (.dir "data" zeroOwn zeroCum []) := rfl
  rw [h1, h2] at h
  exact Option.noConfusion h

/-- Witness for C1 (amended) at a loaded window and a concrete bad cache
file. -/
theorem c1_read_cache_atomicity_witness :
    (sampleLoadedState.tree.readCache (some ⟨[], false⟩)).1 =
      sampleLoadedState.tree ∧
    (sampleLoadedState.tree.readCache (some ⟨[], false⟩)).2 =
      some .cacheFormatError ∧
    (CacheError.cacheFormatError = .cacheFormatError ∨
      CacheError.cacheFormatError = .cacheIOError) ∧
    (askReadCache sampleLoadedState "bad.cache" (some ⟨[], false⟩)).tree.root
      = none := by
  have h := c1_read_cache_atomicity sampleLoadedState.tree (some ⟨[], false⟩)
    sampleLoadedState "bad.cache" .cacheFormatError rfl
  exact ⟨h.1, h.2.1, h.2.2.1, h.2.2.2 (by decide)⟩

/-- C4: stopping the reading of a window whose tree is not busy is a
no-op on the whole window state; a second stopReading directly after a
first one changes nothing; and at the tree level abortReading is
idempotent and a no-op in any state other than Scanning. -/
theorem c4_abort_idempotent (st : UIState) (t : DirTree) :
    (st.tree.isBusy = false → stopReading st = st) ∧
    stopReading (stopReading st) = stopReading st ∧
    t.abortReading.abortReading = t.abortReading ∧
    (t.scanState ≠ .scanning → t.abortReading = t) := by
  refine ⟨?_, ?_, ?_, ?_⟩
  · intro hb
    simp [stopReading, hb]
  · by_cases hb : st.tree.isBusy = true
    · have habort : (st.tree.abortReading).isBusy = false := by
        simp only [DirTree.isBusy, decide_eq_true_eq] at hb
        simp [DirTree.abortReading, hb, DirTree.isBusy]
      simp [stopReading, hb, habort]
    · simp only [Bool.not_eq_true] at hb
      simp [stopReading, hb]
  · by_cases hs : t.scanState = .scanning
    · simp [DirTree.abortReading, hs]
    · simp [DirTree.abortReading, hs]
  · intro hs
    simp [DirTree.abortReading, hs]

/-- Witness for C4 at the freshly constructed (idle) window. -/
theorem c4_abort_idempotent_witness :
    stopReading sampleIdleState = sampleIdleState ∧
    stopReading (stopReading sampleIdleState) = stopReading sampleIdleState ∧
    sampleIdleState.tree.abortReading.abortReading =
      sampleIdleState.tree.abortReading ∧
    sampleIdleState.tree.abortReading = sampleIdleState.tree := by
  have h := c4_abort_idempotent sampleIdleState sampleIdleState.tree
  exact ⟨h.1 (by decide), h.2.1, h.2.2.1, h.2.2.2 (by decide)⟩

/-- C6: after every delivery of a busy/idle state-change signal (scan
starting, finished, or aborted), the stop-reading action is enabled if
and only if the tree is busy, and the refresh, read-cache and write-cache
actions are each enabled if and only if it is not. -/
theorem c6_action_enablement (st : UIState) (sig : TreeSignal) :
    ((deliverTreeSignal st sig).actions.stopReadingEnabled = true ↔
      (deliverTreeSignal st sig).tree.isBusy = true) ∧
    ((deliverTreeSignal st sig).actions.refreshAllEnabled = true ↔
      ¬ (deliverTreeSignal st sig).tree.isBusy = true) ∧
    ((deliverTreeSignal st sig).actions.readCacheEnabled = true ↔
      ¬ (deliverTreeSignal st sig).tree.isBusy = true) ∧
    ((deliverTreeSignal st sig).actions.writeCacheEnabled = true ↔
      ¬ (deliverTreeSignal st sig).tree.isBusy = true) := by
  cases sig <;>
    simp [deliverTreeSignal, updateActions, readingFinished,
          expandTreeToLevel, DirTree.isBusy]

/-- C7: the refresh command with a loaded url starts a fresh scan of
exactly that same url through the same openPath entry point the initial
load uses; with no loaded tree it does not reopen anything directly but
falls back to the open-directory dialog (and with the dialog cancelled no
scan is started at all). -/
theorem c7_refresh_same_root (st : UIState) (dlg : String) :
    (st.tree.url ≠ "" →
      refreshAll st dlg =
        updateActions { st with tree := st.tree.openPath st.tree.url } ∧
      (refreshAll st dlg).tree.url = st.tree.url ∧
      (refreshAll st dlg).tree.scanState = .scanning) ∧
    (st.tree.url = "" → refreshAll st dlg = askOpenUrl st dlg) ∧
    (st.tree.url = "" → dlg = "" → refreshAll st dlg = st) := by
  refine ⟨?_, ?_, ?_⟩
  · intro hu
    refine ⟨by simp [refreshAll, hu], ?_, ?_⟩ <;>
      simp [refreshAll, hu, updateActions, DirTree.openPath]
  · intro hu
    simp [refreshAll, hu]
  · intro hu hdlg
    simp [refreshAll, hu, askOpenUrl, hdlg]

/-- Witness for C7 at a loaded window (refresh reopens /data) and at the
fresh window with a cancelled dialog (refresh does nothing). -/
theorem c7_refresh_same_root_witness :
    (refreshAll sampleLoadedState "" =
      updateActions { sampleLoadedState with
        tree := sampleLoadedState.tree.openPath sampleLoadedState.tree.url } ∧
     (refreshAll sampleLoadedState "").tree.url =
       sampleLoadedState.tree.url ∧
     (refreshAll sampleLoadedState "").tree.scanState = .scanning) ∧
    refreshAll sampleIdleState "" = askOpenUrl sampleIdleState "" ∧
    refreshAll sampleIdleState "" = sampleIdleState := by
  refine ⟨(c7_refresh_same_root sampleLoadedState "").1 (by decide), ?_, ?_⟩
  · exact (c7_refresh_same_root sampleIdleState "").2.1 (by decide)
  · exact (c7_refresh_same_root sampleIdleState "").2.2 (by decide) rfl

/-- C8: writeCache returns a success boolean; when it returns failure the
pre-existing file at the target name is untouched (the failed write went
only to the temporary name), when it returns success the target holds the
complete encoding of the tree; and askWriteCache reports the success or
the error message strictly according to the returned boolean. -/
theorem c8_write_cache_atomic (t : DirTree)
    (disk : String → Option (List CacheLine)) (file : String) (ioOk : Bool)
    (written : Nat) (st : UIState) (dlg : String) :
    ((t.writeCache disk file ioOk written).2 = false →
      (t.writeCache disk file ioOk written).1 file = disk file) ∧
    ((t.writeCache disk file ioOk written).2 = true →
      (t.writeCache disk file ioOk written).1 file = some (encodeTree t)) ∧
    (dlg ≠ "" →
      (askWriteCache st dlg ioOk written).statusMessage =
        if (st.tree.writeCache st.disk dlg ioOk written).2 then
          "Directory tree written to file " ++ dlg
        else "ERROR writing cache file " ++ dlg) := by
  have htmp : ∀ s : String, s ≠ s ++ ".tmp" := by
    intro s h
    have hlen := congrArg String.length h
    simp [String.length_append] at hlen
    exact absurd hlen (by decide)
  refine ⟨?_, ?_, ?_⟩
  · intro hfail
    cases ioOk with
    | true => simp [DirTree.writeCache] at hfail
    | false => simp [DirTree.writeCache, htmp file]
  · intro hok
    cases ioOk with
    | true => simp [DirTree.writeCache]
    | false => simp [DirTree.writeCache] at hok
  · intro hdlg
    simp [askWriteCache, hdlg]

/-- Witness for C8: a failing and a succeeding write at the loaded
window. -/
theorem c8_write_cache_atomic_witness :
    ((sampleLoadedState.tree.writeCache sampleDisk "out.cache" false 1).2 =
        false →
      (sampleLoadedState.tree.writeCache sampleDisk "out.cache" false 1).1
          "out.cache" = sampleDisk "out.cache") ∧
    ((sampleLoadedState.tree.writeCache sampleDisk "out.cache" true 0).2 =
        true →
      (sampleLoadedState.tree.writeCache sampleDisk "out.cache" true 0).1
          "out.cache" = some (encodeTree sampleLoadedState.tree)) ∧
    (askWriteCache sampleLoadedState "out.cache" false 1).statusMessage =
      "ERROR writing cache file out.cache" ∧
    (askWriteCache sampleLoadedState "out.cache" true 0).statusMessage =
      "Directory tree written to file out.cache" := by
  refine ⟨(c8_write_cache_atomic sampleLoadedState.tree sampleDisk "out.cache"
            false 1 sampleLoadedState "out.cache").1,
          (c8_write_cache_atomic sampleLoadedState.tree sampleDisk "out.cache"
            true 0 sampleLoadedState "out.cache").2.1, ?_, ?_⟩
  · have h := (c8_write_cache_atomic sampleLoadedState.tree sampleDisk
      "out.cache" false 1 sampleLoadedState "out.cache").2.2 (by decide)
    rw [h]
    rfl
  · have h := (c8_write_cache_atomic sampleLoadedState.tree sampleDisk
      "out.cache" true 0 sampleLoadedState "out.cache").2.2 (by decide)
    rw [h]
    rfl

theorem updateActions_modified (st : UIState) :
    (updateActions st).modified = st.modified := rfl

theorem expandTreeToLevel_modified (st : UIState) (level : Int) :
    (expandTreeToLevel st level).modified = st.modified := by
  unfold expandTreeToLevel
  split <;> rfl

theorem openUrl_modified (st : UIState) (url : String) :
    (openUrl st url).modified = st.modified := by
  unfold openUrl
  rw [expandTreeToLevel_modified, updateActions_modified]

theorem askOpenUrl_modified (st : UIState) (dlg : String) :
    (askOpenUrl st dlg).modified = st.modified := by
  unfold askOpenUrl
  split
  · rfl
  · exact openUrl_modified st dlg

theorem refreshAll_modified (st : UIState) (dlg : String) :
    (refreshAll st dlg).modified = st.modified := by
  unfold refreshAll
  split
  · exact askOpenUrl_modified st dlg
  · exact updateActions_modified _

theorem stopReading_modified (st : UIState) :
    (stopReading st).modified = st.modified := by
  unfold stopReading
  split <;> rfl

theorem askReadCache_modified (st : UIState) (dlg : String)
    (c : Option CacheFile) : (askReadCache st dlg c).modified = st.modified := by
  unfold askReadCache
  split <;> rfl

theorem askWriteCache_modified (st : UIState) (dlg : String) (ioOk : Bool)
    (w : Nat) : (askWriteCache st dlg ioOk w).modified = st.modified := by
  unfold askWriteCache
  split <;> rfl

theorem readingFinished_modified (st : UIState) :
    (readingFinished st).modified = st.modified := by
  unfold readingFinished
  rw [show ({ expandTreeToLevel { st with statusMessage := "Ready." } 1 with
      sortedByTotalSizeDesc := true } : UIState).modified =
      (expandTreeToLevel { st with statusMessage := "Ready." } 1).modified
      from rfl]
  rw [expandTreeToLevel_modified]

theorem deliverTreeSignal_modified (st : UIState) (sig : TreeSignal) :
    (deliverTreeSignal st sig).modified = st.modified := by
  cases sig with
  | startingReading => exact updateActions_modified _
  | finished =>
      unfold deliverTreeSignal
      rw [updateActions_modified, readingFinished_modified]
  | aborted => exact updateActions_modified _

theorem runSlot_modified (st : UIState) (c : SlotCall) :
    (runSlot st c).modified = st.modified := by
  cases c with
  | openUrlCall url => exact openUrl_modified st url
  | askOpenUrlCall dlg => exact askOpenUrl_modified st dlg
  | refreshAllCall dlg => exact refreshAll_modified st dlg
  | stopReadingCall => exact stopReading_modified st
  | askReadCacheCall dlg c => exact askReadCache_modified st dlg c
  | askWriteCacheCall dlg ok w => exact askWriteCache_modified st dlg ok w
  | expandTreeToLevelCall level => exact expandTreeToLevel_modified st level
  | showProgressCall text => rfl
  | readingFinishedCall => exact readingFinished_modified st
  | updateActionsCall => exact updateActions_modified st
  | notImplementedCall => rfl
  | itemClickedCall => rfl
  | selectionChangedCall => rfl
  | currentItemChangedCall => rfl
  | currentChangedCall => rfl
  | signalDelivery sig => exact deliverTreeSignal_modified st sig

theorem foldl_runSlot_modified (calls : List SlotCall) (st : UIState) :
    (calls.foldl runSlot st).modified = st.modified := by
  induction calls generalizing st with
  | nil => rfl
  | cons c rest ih => rw [List.foldl_cons, ih, runSlot_modified]

/-- C9: the window's modified flag is initialized to false by the
constructor and no sequence of slot invocations reachable through the
window's slots ever sets it, so the close event is always accepted and
the unsaved-changes prompt is never shown. -/
theorem c9_never_modified (disk : String → Option (List CacheLine))
    (calls : List SlotCall) (button : CloseButton) :
    (calls.foldl runSlot (initUIState disk)).modified = false ∧
    closeEvent (calls.foldl runSlot (initUIState disk)) button =
      (true, false) := by
  have h := foldl_runSlot_modified calls (initUIState disk)
  have h0 : (initUIState disk).modified = false := rfl
  rw [h0] at h
  exact ⟨h, by simp [closeEvent, h]⟩

/-- C10: expandTreeToLevel collapses the whole tree view for every level
below 1 — in particular the close-all-levels action is mapped to level
0 — and otherwise expands the view to exactly depth level - 1; both
opening a new path and the completion of a scan invoke it with level 1,
leaving the view expanded to depth 0. -/
theorem c10_expand_tree_level (st : UIState) (level : Int) (url : String) :
    (level < 1 → (expandTreeToLevel st level).view = .collapsedAll) ∧
    (1 ≤ level →
      (expandTreeToLevel st level).view =
        .expandedToDepth (level - 1).toNat) ∧
    ("actionCloseAllTreeLevels", (0 : Int)) ∈ treeLevelMappings ∧
    (openUrl st url).view = (expandTreeToLevel st 1).view ∧
    (readingFinished st).view = (expandTreeToLevel st 1).view ∧
    (expandTreeToLevel st 1).view = .expandedToDepth 0 := by
  have hv : ∀ s : UIState, (expandTreeToLevel s 1).view = .expandedToDepth 0 := by
    intro s
    rw [expandTreeToLevel, if_neg (by omega)]
    rfl
  refine ⟨?_, ?_, ?_, ?_, ?_, hv st⟩
  · intro h
    simp [expandTreeToLevel, h]
  · intro h
    rw [expandTreeToLevel, if_neg (by omega)]
  · simp [treeLevelMappings]
  · rw [openUrl, hv, hv]
  · simp only [readingFinished]
    rw [show ({ expandTreeToLevel { st with statusMessage := "Ready." } 1 with
        sortedByTotalSizeDesc := true } : UIState).view =
        (expandTreeToLevel { st with statusMessage := "Ready." } 1).view
        from rfl]
    rw [hv, hv]

/-- Witness for C10 at the fresh window, with the close-all level 0 and
the expand level 1. -/
theorem c10_expand_tree_level_witness :
    (expandTreeToLevel sampleIdleState 0).view = .collapsedAll ∧
    (expandTreeToLevel sampleIdleState 1).view =
      .expandedToDepth (((1 : Int) - 1).toNat) ∧
    ("actionCloseAllTreeLevels", (0 : Int)) ∈ treeLevelMappings ∧
    (openUrl sampleIdleState "/data").view =
      (expandTreeToLevel sampleIdleState 1).view ∧
    (readingFinished sampleIdleState).view =
      (expandTreeToLevel sampleIdleState 1).view ∧
    (expandTreeToLevel sampleIdleState 1).view = .expandedToDepth 0 := by
  have h0 := c10_expand_tree_level sampleIdleState 0 "/data"
  have h1 := c10_expand_tree_level sampleIdleState 1 "/data"
  exact ⟨h0.1 (by decide), h1.2.1 (by decide), h1.2.2.1, h1.2.2.2.1,
         h1.2.2.2.2.1, h1.2.2.2.2.2⟩
